import Mathlib

/-!
Verification development for `bed`, a bulk command-line text editor
(`src/main.go`).  The core under study:

* `Match` — one tracked occurrence: source path, byte offset, byte
  length of the original span, and (possibly edited) replacement bytes.
* the Matcher (`FindAllIndexPath`) — wraps a regexp engine, producing
  one `Match` per span.
* the Serializer (`Match.MarshalText` / `ParseMatches`) — a line
  oriented block format with a JSON header.
* the Patcher (`ApplyMatches` / `applyPathMatches`) — groups records by
  path and splices each record's data into the file, shifting the
  positions of later records in the same group.

Byte strings are modelled as `List Char` (one `Char` per byte; all
concrete inputs are ASCII).  Go `int` is modelled as `Int`.  Functions
that can panic or fail return `Option`.  Recursions that are not
structural use an explicit fuel argument equal to a length bound, so
that every definition evaluates inside the kernel.
-/

namespace Bed

/-- Byte strings (Go `[]byte`), one `Char` per byte. -/
abbrev Bytes := List Char

/-- View a string literal as bytes. -/
def strB (s : String) : Bytes := s.toList

/-- Go struct `Match` (src/main.go:183-188): source path, position,
original length and current data of one match.  `Pos`/`Len` are Go
`int`s, hence `Int`. -/
structure Match where
  path : String
  pos : Int
  len : Int
  data : Bytes
deriving DecidableEq

/-! ### Patcher: `applyPathMatches` (src/main.go:251-283) -/

/-- The inner shift loop of `applyPathMatches` (src/main.go:269-273):
after one record is spliced, every later record whose `Pos` is at least
`threshold` (the spliced record's `m.Pos`) has `delta` added to its
`Pos`. -/
def shiftLater (threshold delta : Int) (ms : List Match) : List Match :=
  ms.map fun mj => if threshold ≤ mj.pos then { mj with pos := mj.pos + delta } else mj

/-- One splice step (src/main.go:260-266):
`data = append(data[:start:start], append(m.Data, data[end:]...)...)`,
i.e. `take start ++ m.Data ++ drop end`.  Total function; callers check
bounds. -/
def spliceAt (d : Bytes) (start endPos : Int) (mid : Bytes) : Bytes :=
  d.take start.toNat ++ mid ++ d.drop endPos.toNat

/-- Go slice-bound checks for the step: `data[:start:start]` requires
`0 ≤ start ≤ len(data)` and `data[end:]` requires `0 ≤ end ≤ len(data)`;
outside these the Go program panics. -/
def stepOk (m : Match) (d : Bytes) : Prop :=
  0 ≤ m.pos ∧ m.pos ≤ (d.length : Int) ∧
    0 ≤ m.pos + m.len ∧ m.pos + m.len ≤ (d.length : Int)

instance (m : Match) (d : Bytes) : Decidable (stepOk m d) := by
  unfold stepOk; infer_instance

/-- The match-application loop of `applyPathMatches`
(src/main.go:258-274) on an in-memory content buffer.  Each iteration
splices `m.Data` over `[m.Pos, m.Pos+m.Len)` of the current content and
then shifts the later records.  A step whose slice bounds are violated
(a Go panic) yields `none`.  Fuel (= list length) only makes the
recursion structural; `shiftLater` preserves length, so it never runs
out. -/
def applyMatchesDataF : Nat → List Match → Bytes → Option Bytes
  | _, [], d => some d
  | 0, _ :: _, _ => none
  | fuel + 1, m :: rest, d =>
    if stepOk m d then
      applyMatchesDataF fuel
        (shiftLater m.pos ((m.data.length : Int) - m.len) rest)
        (spliceAt d m.pos (m.pos + m.len) m.data)
    else none

/-- The loop of `applyPathMatches` on the file's content. -/
def applyMatchesData (ms : List Match) (d : Bytes) : Option Bytes :=
  applyMatchesDataF ms.length ms d

/-- The file system visible to the program: path to content.  Reading a
missing path fails (Go `ioutil.ReadFile` error). -/
abbrev FS := String → Option Bytes

/-- Model of `applyPathMatches` (src/main.go:251-283): read `path`, apply the
group's records in order, write the new content back to `path`.  Read
failure (and a panicking splice) is `none`. -/
def applyPathMatches (fs : FS) (path : String) (ms : List Match) : Option FS :=
  (fs path).bind fun d =>
    (applyMatchesData ms d).map fun d2 => fun p => if p = path then some d2 else fs p

/-- First-occurrence deduplication of a path list.  `groupMatchesByPath`
(src/main.go:286-298) iterates a Go map whose order is unspecified; each
path appears exactly once and its group keeps input order.  We fix
first-occurrence order for the path list — per-path results do not
depend on it, because distinct groups touch distinct paths. -/
def dedupFirst : List String → List String
  | [] => []
  | p :: rest => p :: (dedupFirst rest).filter fun q => q ≠ p

/-- Model of `groupMatchesByPath` (src/main.go:286-298): the records of each path,
in input order (Go appends to `m[matches[i].Path]` in input order). -/
def groupMatchesByPath (ms : List Match) : List (String × List Match) :=
  (dedupFirst (ms.map fun m => m.path)).map fun p => (p, ms.filter fun m => m.path = p)

/-- The loop of `ApplyMatches` (src/main.go:241-249): apply each path's
group in turn, stopping at the first error. -/
def applyGroups : List (String × List Match) → FS → Option FS
  | [], fs => some fs
  | (p, g) :: rest, fs => (applyPathMatches fs p g).bind fun fs2 => applyGroups rest fs2

/-- Model of `ApplyMatches` (src/main.go:241-249). -/
def ApplyMatches (ms : List Match) (fs : FS) : Option FS :=
  applyGroups (groupMatchesByPath ms) fs

/-! ### Matcher: `FindAllIndexPath` (src/main.go:160-180) -/

/-- The bytes of `t` in the half-open span `[s, e)` (Go `data[s:e]`). -/
def extractList (t : Bytes) (s e : Nat) : Bytes := (t.drop s).take (e - s)

/-- The regexp engine, which the spec treats as a black box that returns
all non-overlapping spans in one left-to-right scan.  `findAllIndex` and
`findAll` model `Regexp.FindAllIndex` / `Regexp.FindAll` with count -1;
the three fields of evidence are the engine's documented guarantees:
`FindAll` returns exactly the matched bytes of the same matches, spans
are within the input, and matches are non-overlapping in scan order. -/
structure Regexp where
  findAllIndex : Bytes → List (Nat × Nat)
  findAll : Bytes → List Bytes
  coh : ∀ t, findAll t = (findAllIndex t).map fun pr => extractList t pr.1 pr.2
  bounds : ∀ t pr, pr ∈ findAllIndex t → pr.1 ≤ pr.2 ∧ pr.2 ≤ t.length
  ordered : ∀ t, (findAllIndex t).Chain' fun pr qr => pr.2 ≤ qr.1

/-- Model of `FindAllIndexPath` (src/main.go:160-180): read the file, then build
one record per span: `Pos: a[i][0]`, `Len: a[i][1]-a[i][0]`,
`Data: b[i]`.  The Go loop indexes `b` by the positions of `a`; since
the engine returns one data slice per span this is their zip. -/
def FindAllIndexPath (re : Regexp) (fs : FS) (path : String) : Option (List Match) :=
  (fs path).map fun d =>
    ((re.findAllIndex d).zip (re.findAll d)).map
      fun pr => ⟨path, (pr.1.1 : Int), (pr.1.2 : Int) - (pr.1.1 : Int), pr.2⟩

/-- A concrete engine for witnesses: it matches the first byte of any
nonempty input. -/
def demoRe : Regexp where
  findAllIndex t := if 1 ≤ t.length then [(0, 1)] else []
  findAll t := if 1 ≤ t.length then [t.take 1] else []
  coh t := by
    by_cases h : 1 ≤ t.length <;> simp [h, extractList]
  bounds t pr hpr := by
    simp only at hpr
    by_cases h : 1 ≤ t.length
    · rw [if_pos h] at hpr
      simp only [List.mem_singleton] at hpr
      subst hpr
      exact ⟨Nat.zero_le 1, h⟩
    · rw [if_neg h] at hpr
      simp at hpr
  ordered t := by
    by_cases h : 1 ≤ t.length <;> simp [h]

/-- A concrete one-file file system for witnesses. -/
def fsW : FS := fun p => if p = "w" then some (strB "hello") else none

/-- A concrete two-file file system for witnesses. -/
def fsW2 : FS :=
  fun p => if p = "a" then some (strB "abc") else if p = "b" then some (strB "de") else none

/-! ### Variant definitions used to settle corrected claims.

`claimOkB` is the per-step precondition of claim C10 exactly as the
spec states it; `amendedOkB` adds `0 ≤ len`.  `applyMatchesOrig` is the
apply loop as §4.3 of the spec words it for claim C2, with the shift
threshold taken from the applied record's *original* input pos (each
record carries its original pos alongside). -/

/-- Claim C10's stated per-step bound: `0 ≤ pos` and `pos + len` at most
the current content length. -/
def claimOkB (m : Match) (d : Bytes) : Bool :=
  decide (0 ≤ m.pos) && decide (m.pos + m.len ≤ (d.length : Int))

/-- The amended per-step bound: additionally `0 ≤ len`. -/
def amendedOkB (m : Match) (d : Bytes) : Bool :=
  decide (0 ≤ m.pos) && decide (0 ≤ m.len) && decide (m.pos + m.len ≤ (d.length : Int))

/-- Predicate `traceOk ok ms d`: the per-step predicate `ok` holds at every step
of the apply loop, i.e. for each record against the in-memory content
at the moment that record is spliced (with the shifts applied exactly
as the loop applies them). -/
def traceOkF (ok : Match → Bytes → Bool) : Nat → List Match → Bytes → Bool
  | _, [], _ => true
  | 0, _ :: _, _ => false
  | fuel + 1, m :: rest, d =>
    ok m d && traceOkF ok fuel
      (shiftLater m.pos ((m.data.length : Int) - m.len) rest)
      (spliceAt d m.pos (m.pos + m.len) m.data)

/-- See `traceOkF`. -/
def traceOk (ok : Match → Bytes → Bool) (ms : List Match) (d : Bytes) : Bool :=
  traceOkF ok ms.length ms d

/-- Modelled from the spec for claim C2: the shift of later records
uses the applied record's original pos as threshold ("for every later
record in the same group whose pos ≥ (this record's original) pos, add
delta to its pos").  Records are paired with their original pos. -/
def shiftLaterOrig (threshold delta : Int) (ms : List (Match × Int)) : List (Match × Int) :=
  ms.map fun mj =>
    if threshold ≤ mj.1.pos then ({ mj.1 with pos := mj.1.pos + delta }, mj.2) else mj

/-- Modelled from the spec for claim C2: the apply loop with the shift
threshold taken from the applied record's original pos. -/
def applyMatchesOrigF : Nat → List (Match × Int) → Bytes → Option Bytes
  | _, [], d => some d
  | 0, _ :: _, _ => none
  | fuel + 1, (m, og) :: rest, d =>
    if stepOk m d then
      applyMatchesOrigF fuel
        (shiftLaterOrig og ((m.data.length : Int) - m.len) rest)
        (spliceAt d m.pos (m.pos + m.len) m.data)
    else none

/-- See `applyMatchesOrigF`. -/
def applyMatchesOrig (ms : List (Match × Int)) (d : Bytes) : Option Bytes :=
  applyMatchesOrigF ms.length ms d

/-- Pair every record with its original (input) pos. -/
def withOrig (ms : List Match) : List (Match × Int) := ms.map fun m => (m, m.pos)

/-! ### Serializer: `Match.MarshalText` (src/main.go:196-207) -/

/-- The character `0x7b` (opening curly bracket). -/
def lbrace : Char := Char.ofNat 123

/-- The character `0x7d` (closing curly bracket). -/
def rbrace : Char := Char.ofNat 125

def isDigitCh (c : Char) : Bool := decide (48 ≤ c.toNat) && decide (c.toNat ≤ 57)

def digitChar (n : Nat) : Char := Char.ofNat (48 + n)

/-- Decimal digits of `n`, most significant first.  Fuel (any bound
above `n`) only makes the recursion structural. -/
def natDigitsF : Nat → Nat → List Char
  | 0, _ => []
  | fuel + 1, n => if n < 10 then [digitChar n] else natDigitsF fuel (n / 10) ++ [digitChar (n % 10)]

/-- Decimal digits of `n`, most significant first. -/
def natDigits (n : Nat) : List Char := natDigitsF (n + 1) n

/-- Go `%d` for an `int` (how `encoding/json` prints `Pos`/`Len`). -/
def intStr (i : Int) : List Char :=
  if i < 0 then '-' :: natDigits (-i).toNat else natDigits i.toNat

/-- Value of a digit string, most significant first. -/
def digitsToNat (ds : List Char) : Nat := ds.foldl (fun acc c => acc * 10 + (c.toNat - 48)) 0

/-- JSON string escaping for one character, as `encoding/json` does for
the characters that matter to the block format: quote, backslash,
newline, tab, carriage return.  (Go also `\u`-escapes other control
characters and `<`, `>`, `&`; those escapes decode to the same string,
and like these they keep the header free of raw newlines.) -/
def escapeChar (c : Char) : List Char :=
  if c = '"' then ['\\', '"']
  else if c = '\\' then ['\\', '\\']
  else if c = '\n' then ['\\', 'n']
  else if c = '\t' then ['\\', 't']
  else if c = '\r' then ['\\', 'r']
  else [c]

/-- JSON string quoting (without the surrounding quotes). -/
def jsonQuote (s : List Char) : List Char := (s.map escapeChar).flatten

/-- Model of `json.Marshal(matchJSON{Path, Pos, Len})` (src/main.go:197): the
one-line object `{"path":<quoted>,"pos":<int>,"len":<int>}`, keys in
struct order, written out byte by byte. -/
def marshalHeader (m : Match) : List Char :=
  lbrace :: '"' :: 'p' :: 'a' :: 't' :: 'h' :: '"' :: ':' :: '"' ::
    (jsonQuote m.path.toList ++ ('"' :: ',' :: '"' :: 'p' :: 'o' :: 's' :: '"' :: ':' ::
      (intStr m.pos ++ (',' :: '"' :: 'l' :: 'e' :: 'n' :: '"' :: ':' ::
        (intStr m.len ++ [rbrace])))))

/-- The `#bed:begin ` marker with its trailing space (src/main.go:203). -/
def beginMarker : List Char := strB "#bed:begin "

/-- The 9-byte terminator sequence the regex body capture stops at:
a newline followed by `#bed:end` (src/main.go:224). -/
def endMarker : List Char := strB "\n#bed:end"

/-- Model of `Match.MarshalText` (src/main.go:196-207): the begin marker and the
header line, the data followed by a newline (`Fprintln`), and the
`#bed:end` line. -/
def marshalText (m : Match) : List Char :=
  beginMarker ++ (marshalHeader m ++ ('\n' :: (m.data ++ (endMarker ++ ['\n']))))

/-- Model of `writeTempMatchFile` (src/main.go:127-144): each record's marshalled
block followed by one extra newline. -/
def writeMatchFile (ms : List Match) : List Char :=
  (ms.map fun m => marshalText m ++ ['\n']).flatten

/-! ### Serializer: `ParseMatches` (src/main.go:224-238) -/

/-- Does `pat` start the list `t`? -/
def startsWithB : List Char → List Char → Bool
  | [], _ => true
  | _ :: _, [] => false
  | p :: ps, c :: cs => p == c && startsWithB ps cs

/-- Index of the first occurrence of `pat` in `t`, if any. -/
def findSub (pat : List Char) : List Char → Option Nat
  | [] => if startsWithB pat [] then some 0 else none
  | c :: rest =>
    if startsWithB pat (c :: rest) then some 0
    else (findSub pat rest).map (· + 1)

/-- Does `pat` occur anywhere in `t`? -/
def occursIn (pat : List Char) (t : List Char) : Bool := (findSub pat t).isSome

/-- Body part of one `matchTextRegex` attempt: `hdr` is the already
matched header capture, `t2` the text after the header's newline.  The
non-greedy `(.*?)` (with the `s` flag, so any bytes) takes the shortest
body followed by the literal 9-byte `"\n#bed:end"`: the body runs to
the first occurrence of that sequence.  Returns the two captures and
the total length of the regex match. -/
def tryMatchBody (hdr t2 : List Char) : Option (List Char × List Char × Nat) :=
  match findSub endMarker t2 with
  | some k =>
    some (hdr, t2.take k, beginMarker.length + hdr.length + 1 + k + endMarker.length)
  | none => none

/-- Header part of one `matchTextRegex` attempt, on the text `t1` after
`#bed:begin `: the capture `([^\n]+)` is greedy and followed by `\n`, so
it is exactly the text up to the next newline, must be nonempty, and
the newline must exist (the capture stops short of `t1`'s end). -/
def tryMatchAfterBegin (t1 : List Char) : Option (List Char × List Char × Nat) :=
  if (t1.takeWhile fun c => c != '\n').isEmpty then none
  else if (t1.takeWhile fun c => c != '\n').length < t1.length then
    tryMatchBody (t1.takeWhile fun c => c != '\n')
      (t1.drop ((t1.takeWhile fun c => c != '\n').length + 1))
  else none

/-- One attempt of `matchTextRegex` (src/main.go:224),
`(?s)#bed:begin ([^\n]+)\n(.*?)\n#bed:end`, anchored at the start of
`t`. -/
def tryMatchAt (t : List Char) : Option (List Char × List Char × Nat) :=
  if startsWithB beginMarker t then tryMatchAfterBegin (t.drop beginMarker.length)
  else none

/-- Model of `matchTextRegex.FindAll(data, -1)` (src/main.go:230): the
leftmost-first, non-overlapping scan.  At each position try the
anchored match; on success emit the captures and continue right after
the match, otherwise advance one byte.  Fuel (= text length) only makes
the recursion structural. -/
def scanBlocksF : Nat → List Char → List (List Char × List Char)
  | 0, _ => []
  | _ + 1, [] => []
  | fuel + 1, c :: rest =>
    match tryMatchAt (c :: rest) with
    | some (hdr, body, n) => (hdr, body) :: scanBlocksF fuel (rest.drop (n - 1))
    | none => scanBlocksF fuel rest

/-- See `scanBlocksF`. -/
def scanBlocks (t : List Char) : List (List Char × List Char) := scanBlocksF t.length t

def isWs (c : Char) : Bool := c == ' ' || c == '\t' || c == '\n' || c == '\r'

def skipWs (t : List Char) : List Char := t.dropWhile isWs

def unescapeChar (c : Char) : Option Char :=
  if c = '"' then some '"'
  else if c = '\\' then some '\\'
  else if c = '/' then some '/'
  else if c = 'n' then some '\n'
  else if c = 't' then some '\t'
  else if c = 'r' then some '\r'
  else if c = 'b' then some (Char.ofNat 8)
  else if c = 'f' then some (Char.ofNat 12)
  else none

/-- Parse a JSON string body after the opening quote; returns the
decoded characters and the rest after the closing quote.  (`\uXXXX`
escapes are not modelled; Go accepts them.) -/
def parseJString : List Char → Option (List Char × List Char)
  | [] => none
  | c :: rest =>
    if c = '"' then some ([], rest)
    else if c = '\\' then
      match rest with
      | [] => none
      | e :: rest2 =>
        match unescapeChar e with
        | none => none
        | some c2 => (parseJString rest2).map fun pr => (c2 :: pr.1, pr.2)
    else (parseJString rest).map fun pr => (c :: pr.1, pr.2)

/-- Parse a decimal integer token. -/
def parseNatTok (t : List Char) : Option (Nat × List Char) :=
  if (t.takeWhile isDigitCh).isEmpty then none
  else some (digitsToNat (t.takeWhile isDigitCh), t.drop (t.takeWhile isDigitCh).length)

/-- A JSON member value, as far as the header format needs: a string or
an integer.  (Nested objects and arrays, floats, booleans and null are
not modelled; Go accepts some of those — a float in `pos` is still an
unmarshal error, anything in an ignored field is accepted — but no
claim depends on them.) -/
inductive JVal where
  | str (s : List Char)
  | num (n : Int)
deriving DecidableEq

/-- Parse one JSON member value. -/
def parseJVal (t : List Char) : Option (JVal × List Char) :=
  match skipWs t with
  | [] => none
  | c :: rest =>
    if c = '"' then (parseJString rest).map fun pr => (JVal.str pr.1, pr.2)
    else if c = '-' then (parseNatTok rest).map fun pr => (JVal.num (-(pr.1 : Int)), pr.2)
    else if isDigitCh c then (parseNatTok (c :: rest)).map fun pr => (JVal.num (pr.1 : Int), pr.2)
    else none

/-- Parse the members of a JSON object after the opening brace (at
least one member), up to and including the closing brace.  Fuel bounds
the number of members; called with fuel above the text length, which a
member list can never exhaust. -/
def parseMembers : Nat → List Char → Option (List (List Char × JVal) × List Char)
  | 0, _ => none
  | fuel + 1, t =>
    match skipWs t with
    | [] => none
    | c :: rest =>
      if c = '"' then
        match parseJString rest with
        | none => none
        | some (key, r1) =>
          match skipWs r1 with
          | ':' :: r2 =>
            match parseJVal r2 with
            | none => none
            | some (v, r3) =>
              match skipWs r3 with
              | c2 :: r4 =>
                if c2 = ',' then (parseMembers fuel r4).map fun pr => ((key, v) :: pr.1, pr.2)
                else if c2 = rbrace then some ([(key, v)], r4)
                else none
              | [] => none
          | _ => none
      else none

/-- Fold the member list into `(path, pos, len)` the way
`json.Unmarshal` fills `matchJSON` (src/main.go:190-194, 216): missing
fields keep their zero values, unknown fields are ignored, a repeated
field keeps its last value, and a type mismatch is an error. -/
def extractFields : List (List Char × JVal) → (String × Int × Int) → Option (String × Int × Int)
  | [], acc => some acc
  | kv :: rest, acc =>
    if kv.1 = strB "path" then
      match kv.2 with
      | JVal.str s => extractFields rest (String.mk s, acc.2.1, acc.2.2)
      | JVal.num _ => none
    else if kv.1 = strB "pos" then
      match kv.2 with
      | JVal.num n => extractFields rest (acc.1, n, acc.2.2)
      | JVal.str _ => none
    else if kv.1 = strB "len" then
      match kv.2 with
      | JVal.num n => extractFields rest (acc.1, acc.2.1, n)
      | JVal.str _ => none
    else extractFields rest acc

/-- Model of `json.Unmarshal(hdr, &matchJSON{...})` (src/main.go:215-218): the
header line must be one JSON object and nothing else; `{}` yields the
zero values. -/
def parseHeader (t : List Char) : Option (String × Int × Int) :=
  match skipWs t with
  | [] => none
  | c :: rest =>
    if c = lbrace then
      match skipWs rest with
      | [] => none
      | c2 :: r2 =>
        if c2 = rbrace then
          if (skipWs r2).isEmpty then some ("", 0, 0) else none
        else
          match parseMembers (t.length + 1) (c2 :: r2) with
          | none => none
          | some (mems, r) =>
            if (skipWs r).isEmpty then extractFields mems ("", 0, 0) else none
    else none

/-- Model of `Match.UnmarshalText` (src/main.go:209-222) on one block found by
the scan: re-running the anchored regex on the emitted block reproduces
the same header and body captures, so the block parser consumes the
captures directly; the header must unmarshal as JSON and the body
becomes `Data`. -/
def parseBlock (b : List Char × List Char) : Option Match :=
  (parseHeader b.1).map fun h => ⟨h.1, h.2.1, h.2.2, b.2⟩

/-- The loop of `ParseMatches` (src/main.go:228-238): parse every block
found by the scan, in document order, failing wholesale on the first
bad header. -/
def parseBlocks : List (List Char × List Char) → Option (List Match)
  | [] => some []
  | b :: rest => (parseBlock b).bind fun m => (parseBlocks rest).map fun ms => m :: ms

/-- Model of `ParseMatches` (src/main.go:226-238). -/
def ParseMatches (t : List Char) : Option (List Match) := parseBlocks (scanBlocks t)

/-- A concrete engine for counterexamples: it matches the whole content
of any nonempty input (like the pattern `(?s).+`). -/
def cexRe : Regexp where
  findAllIndex t := if t.isEmpty then [] else [(0, t.length)]
  findAll t := if t.isEmpty then [] else [t]
  coh t := by
    cases t with
    | nil => rfl
    | cons c cs => simp [extractList]
  bounds t pr hpr := by
    cases t with
    | nil => simp at hpr
    | cons c cs =>
      simp only [List.isEmpty_cons, if_neg Bool.false_ne_true, List.mem_singleton] at hpr
      subst hpr
      exact ⟨Nat.zero_le _, Nat.le_refl _⟩
  ordered t := by
    cases t <;> simp

end Bed

namespace Bed

/-! ### Basic equations for the fueled apply loop -/

theorem length_shiftLater (threshold delta : Int) (ms : List Match) :
    (shiftLater threshold delta ms).length = ms.length := by
  simp [shiftLater]

theorem applyMatchesData_nil (d : Bytes) : applyMatchesData [] d = some d := rfl

theorem applyMatchesData_cons (m : Match) (rest : List Match) (d : Bytes) :
    applyMatchesData (m :: rest) d =
      if stepOk m d then
        applyMatchesData (shiftLater m.pos ((m.data.length : Int) - m.len) rest)
          (spliceAt d m.pos (m.pos + m.len) m.data)
      else none := by
  show applyMatchesDataF (rest.length + 1) (m :: rest) d = _
  rw [applyMatchesDataF]
  by_cases h : stepOk m d
  · rw [if_pos h, if_pos h]
    unfold applyMatchesData
    rw [length_shiftLater]
  · rw [if_neg h, if_neg h]

/-- C1: for a single file with content "aaaXbbbXccc" and the two match
records (pos=3,len=1,data="YY") and (pos=7,len=1,data="Z") applied in
that order, `ApplyMatches` rewrites the file to exactly "aaaYYbbbZccc":
the second record is spliced at its shifted offset after the first edit
grows the content by one byte. -/
theorem offset_shift_example :
    ∃ fs', ApplyMatches
        [⟨"f", 3, 1, strB "YY"⟩, ⟨"f", 7, 1, strB "Z"⟩]
        (fun p => if p = "f" then some (strB "aaaXbbbXccc") else none) = some fs'
      ∧ fs' "f" = some (strB "aaaYYbbbZccc") := by
  refine ⟨_, rfl, ?_⟩
  decide

theorem traceOk_cons (ok : Match → Bytes → Bool) (m : Match) (rest : List Match) (d : Bytes) :
    traceOk ok (m :: rest) d =
      (ok m d && traceOk ok (shiftLater m.pos ((m.data.length : Int) - m.len) rest)
        (spliceAt d m.pos (m.pos + m.len) m.data)) := by
  show traceOkF ok (rest.length + 1) (m :: rest) d = _
  rw [traceOkF]
  unfold traceOk
  rw [length_shiftLater]

/-- C10 (amended): if at the moment each record's span is spliced we
have `0 ≤ pos`, `0 ≤ len` and `pos + len ≤` the length of the file's
current in-memory content, then every byte-slicing step of the apply
loop is in bounds and the loop returns a result (never the `none` that
models a Go slice-bounds panic).  The loop itself validates nothing.
(The claim's original precondition, without `0 ≤ len`, is refuted by
`apply_bounds_counterexample`.) -/
theorem apply_total_of_bounds (ms : List Match) (d : Bytes)
    (h : traceOk amendedOkB ms d = true) :
    ∃ r, applyMatchesData ms d = some r := by
  have H : ∀ (n : Nat) (ms : List Match) (d : Bytes), ms.length = n →
      traceOk amendedOkB ms d = true → ∃ r, applyMatchesData ms d = some r := by
    intro n
    induction n with
    | zero =>
      intro ms d hlen _
      cases ms with
      | nil => exact ⟨d, rfl⟩
      | cons m rest => simp at hlen
    | succ n ih =>
      intro ms d hlen h
      cases ms with
      | nil => exact ⟨d, rfl⟩
      | cons m rest =>
        rw [traceOk_cons, Bool.and_eq_true] at h
        have hok : stepOk m d := by
          have h1 := h.1
          simp only [amendedOkB, Bool.and_eq_true, decide_eq_true_eq] at h1
          exact ⟨h1.1.1, by omega, by omega, h1.2⟩
        rw [applyMatchesData_cons, if_pos hok]
        refine ih _ _ ?_ h.2
        rw [length_shiftLater]
        simpa using hlen
  exact H ms.length ms d rfl h

/-- C10 witness for `apply_total_of_bounds` at a concrete record. -/
theorem apply_total_of_bounds_witness :
    ∃ r, applyMatchesData [⟨"a", 1, 2, strB "XY"⟩] (strB "abcd") = some r :=
  apply_total_of_bounds [⟨"a", 1, 2, strB "XY"⟩] (strB "abcd") (by decide)

/-- C10 counterexample: the precondition exactly as claimed (`0 ≤ pos`
and `pos + len ≤` current length, nothing about `len`) holds throughout
for the single record (pos=2, len=-4) on "abc", yet the splice step is
out of range: Go evaluates `data[-2:]` and panics (modelled as `none`).
So the stated precondition does not make the apply loop total. -/
theorem apply_bounds_counterexample :
    traceOk claimOkB [⟨"a", 2, -4, []⟩] (strB "abc") = true ∧
      applyMatchesData [⟨"a", 2, -4, []⟩] (strB "abc") = none := by
  decide

/-- C8: a record with `len = 0` is applied as a pure insertion of its
data at offset `pos` — the new content is `take pos ++ data ++ drop
pos`, the surrounding bytes are untouched, the length grows by exactly
`length data`, and the later records are shifted by `delta = length
data`.  A record with empty data is applied as a pure deletion of the
`len` bytes of its span: the new content is `take pos ++ drop
(pos+len)` and the length shrinks by exactly `len`. -/
theorem insertion_deletion (p : String) (pos l : Int) (d content : Bytes)
    (rest : List Match)
    (h1 : 0 ≤ pos) (h2 : pos ≤ (content.length : Int)) (h3 : 0 ≤ l)
    (h4 : pos + l ≤ (content.length : Int)) :
    (applyMatchesData (⟨p, pos, 0, d⟩ :: rest) content
        = applyMatchesData (shiftLater pos ((d.length : Int)) rest)
            (content.take pos.toNat ++ d ++ content.drop pos.toNat))
    ∧ (content.take pos.toNat ++ d ++ content.drop pos.toNat).length
        = content.length + d.length
    ∧ applyMatchesData [⟨p, pos, l, []⟩] content
        = some (content.take pos.toNat ++ content.drop (pos + l).toNat)
    ∧ ((content.take pos.toNat ++ content.drop (pos + l).toNat).length : Int)
        = (content.length : Int) - l := by
  have hok0 : stepOk ⟨p, pos, 0, d⟩ content := by
    show 0 ≤ pos ∧ pos ≤ (content.length : Int)
      ∧ 0 ≤ pos + 0 ∧ pos + 0 ≤ (content.length : Int)
    exact ⟨h1, h2, by omega, by omega⟩
  have hokl : stepOk ⟨p, pos, l, []⟩ content := by
    show 0 ≤ pos ∧ pos ≤ (content.length : Int)
      ∧ 0 ≤ pos + l ∧ pos + l ≤ (content.length : Int)
    exact ⟨h1, by omega, by omega, h4⟩
  refine ⟨?_, ?_, ?_, ?_⟩
  · rw [applyMatchesData_cons, if_pos hok0]
    simp [spliceAt]
  · simp
    omega
  · rw [applyMatchesData_cons, if_pos hokl]
    simp [spliceAt, shiftLater, applyMatchesData_nil]
  · simp
    omega

/-- C8 witness: inserting "XY" at offset 2 of "abcde" (with one later
record in the group), and deleting 2 bytes at offset 1. -/
theorem insertion_deletion_witness :
    (applyMatchesData [⟨"f", 2, 0, strB "XY"⟩, ⟨"f", 4, 1, strB "q"⟩] (strB "abcde")
        = applyMatchesData (shiftLater 2 (((strB "XY").length : Int)) [⟨"f", 4, 1, strB "q"⟩])
            ((strB "abcde").take (2 : Int).toNat ++ strB "XY" ++ (strB "abcde").drop (2 : Int).toNat))
    ∧ ((strB "abcde").take (2 : Int).toNat ++ strB "XY" ++ (strB "abcde").drop (2 : Int).toNat).length
        = (strB "abcde").length + (strB "XY").length
    ∧ applyMatchesData [⟨"f", 2, 2, []⟩] (strB "abcde")
        = some ((strB "abcde").take (2 : Int).toNat ++ (strB "abcde").drop ((2 : Int) + 2).toNat)
    ∧ (((strB "abcde").take (2 : Int).toNat ++ (strB "abcde").drop ((2 : Int) + 2).toNat).length : Int)
        = ((strB "abcde").length : Int) - 2 := by
  have h := insertion_deletion "f" 2 2 (strB "XY") (strB "abcde") [⟨"f", 4, 1, strB "q"⟩]
    (by decide) (by decide) (by decide) (by decide)
  exact ⟨h.1, h.2.1, h.2.2.1, h.2.2.2⟩

/-- C2 (amended): after each record is spliced, the loop adds
`delta = length(data) - len` to the pos of exactly those later records
of the group whose pos is at least the spliced record's *current* pos —
the pos it was spliced at, which earlier shifts may already have moved
away from its original input pos.  Later records below that threshold
are left unshifted.  (The original-pos threshold the claim states is
refuted by `shift_threshold_counterexample`.) -/
theorem shift_threshold_is_current (m : Match) (rest : List Match) (d : Bytes)
    (hok : stepOk m d) :
    applyMatchesData (m :: rest) d
        = applyMatchesData (shiftLater m.pos ((m.data.length : Int) - m.len) rest)
            (spliceAt d m.pos (m.pos + m.len) m.data)
    ∧ ∀ (j : Nat) (mj : Match), rest[j]? = some mj →
        (shiftLater m.pos ((m.data.length : Int) - m.len) rest)[j]?
          = some (if m.pos ≤ mj.pos
              then { mj with pos := mj.pos + ((m.data.length : Int) - m.len) }
              else mj) := by
  constructor
  · rw [applyMatchesData_cons, if_pos hok]
  · intro j mj hj
    simp [shiftLater, List.getElem?_map, hj]

/-- C2 witness: splicing (pos=1, len=1, data="uv") into "abcdef" with
later records at pos 5 (shifted: 5 ≥ 1) and pos 0 (unshifted: 0 < 1). -/
theorem shift_threshold_is_current_witness :
    applyMatchesData [⟨"a", 1, 1, strB "uv"⟩, ⟨"a", 5, 0, strB "k"⟩, ⟨"a", 0, 1, strB "z"⟩] (strB "abcdef")
        = applyMatchesData
            (shiftLater 1 (((strB "uv").length : Int) - 1) [⟨"a", 5, 0, strB "k"⟩, ⟨"a", 0, 1, strB "z"⟩])
            (spliceAt (strB "abcdef") 1 (1 + 1) (strB "uv"))
    ∧ (shiftLater 1 (((strB "uv").length : Int) - 1) [⟨"a", 5, 0, strB "k"⟩, ⟨"a", 0, 1, strB "z"⟩])[0]?
        = some ⟨"a", 6, 0, strB "k"⟩
    ∧ (shiftLater 1 (((strB "uv").length : Int) - 1) [⟨"a", 5, 0, strB "k"⟩, ⟨"a", 0, 1, strB "z"⟩])[1]?
        = some ⟨"a", 0, 1, strB "z"⟩ := by
  have h := shift_threshold_is_current ⟨"a", 1, 1, strB "uv"⟩
    [⟨"a", 5, 0, strB "k"⟩, ⟨"a", 0, 1, strB "z"⟩] (strB "abcdef") (by decide)
  refine ⟨h.1, ?_, ?_⟩
  · have h0 := h.2 0 ⟨"a", 5, 0, strB "k"⟩ rfl
    rw [h0]; decide
  · have h1 := h.2 1 ⟨"a", 0, 1, strB "z"⟩ rfl
    rw [h1]; decide

/-- C2 counterexample: the group (pos=0,len=0,"A"), (pos=3,len=1,""),
(pos=2,len=1,"Q") on "abcdef".  The first record shifts the others to
pos 4 and 3.  When the second is applied, its current pos is 4 but its
original pos is 3; the third record (now at pos 3) is below the
current-pos threshold, so the code leaves it at 3 and produces
"AabQef", while the claim's original-pos threshold (3 ≥ 3) would shift
it to 2 and produce "AaQcef". -/
theorem shift_threshold_counterexample :
    applyMatchesData
        [⟨"a", 0, 0, strB "A"⟩, ⟨"a", 3, 1, []⟩, ⟨"a", 2, 1, strB "Q"⟩]
        (strB "abcdef") = some (strB "AabQef")
    ∧ applyMatchesOrig
        (withOrig [⟨"a", 0, 0, strB "A"⟩, ⟨"a", 3, 1, []⟩, ⟨"a", 2, 1, strB "Q"⟩])
        (strB "abcdef") = some (strB "AaQcef")
    ∧ strB "AabQef" ≠ strB "AaQcef" := by
  decide

/-! ### Matcher lemmas (C7, C6) -/

theorem findAll_zip (re : Regexp) (t : Bytes) :
    (re.findAllIndex t).zip (re.findAll t)
      = (re.findAllIndex t).map fun pr => (pr, extractList t pr.1 pr.2) := by
  rw [re.coh]
  generalize re.findAllIndex t = l
  induction l with
  | nil => rfl
  | cons a l ih => simpa using ih

/-- C7: for every pattern and file content, the Matcher returns one
record per span of the engine's scan, in scan order, with `pos = start`,
`len = end - start` and `data =` the content bytes of `[start, end)`;
when the engine finds no match the result is the empty sequence and not
an error. -/
theorem matcher_output (re : Regexp) (fs : FS) (path : String) (content : Bytes)
    (hc : fs path = some content) :
    FindAllIndexPath re fs path
        = some ((re.findAllIndex content).map
            fun pr => ⟨path, (pr.1 : Int), (pr.2 : Int) - (pr.1 : Int),
              extractList content pr.1 pr.2⟩)
    ∧ (re.findAllIndex content = [] → FindAllIndexPath re fs path = some []) := by
  have hmain : FindAllIndexPath re fs path
      = some ((re.findAllIndex content).map
          fun pr => ⟨path, (pr.1 : Int), (pr.2 : Int) - (pr.1 : Int),
            extractList content pr.1 pr.2⟩) := by
    unfold FindAllIndexPath
    rw [hc, Option.map_some', findAll_zip, List.map_map]
    rfl
  refine ⟨hmain, fun h => ?_⟩
  rw [hmain, h]
  rfl

/-- C7 witness: the demo engine on the one-file system `fsW`. -/
theorem matcher_output_witness :
    FindAllIndexPath demoRe fsW "w" = some [⟨"w", 0, 1, strB "h"⟩] := by
  have h := (matcher_output demoRe fsW "w" (strB "hello") rfl).1
  rw [h]
  decide

theorem shiftLater_zero (threshold : Int) (ms : List Match) :
    shiftLater threshold 0 ms = ms := by
  unfold shiftLater
  have h : ∀ mj : Match,
      (if threshold ≤ mj.pos then { mj with pos := mj.pos + 0 } else mj) = mj := by
    intro mj
    rw [Int.add_zero]
    split <;> rfl
  simp only [h, List.map_id']

/-- Applying records whose data is exactly the bytes of their own spans
leaves the content unchanged: every splice rewrites a span with itself
and every shift adds a zero delta. -/
theorem applyMatchesData_id (ms : List Match) (content : Bytes)
    (h : ∀ m ∈ ms, 0 ≤ m.pos ∧ 0 ≤ m.len ∧ m.pos + m.len ≤ (content.length : Int)
        ∧ m.data = extractList content m.pos.toNat (m.pos + m.len).toNat) :
    applyMatchesData ms content = some content := by
  have H : ∀ (n : Nat) (ms : List Match), ms.length = n →
      (∀ m ∈ ms, 0 ≤ m.pos ∧ 0 ≤ m.len ∧ m.pos + m.len ≤ (content.length : Int)
        ∧ m.data = extractList content m.pos.toNat (m.pos + m.len).toNat) →
      applyMatchesData ms content = some content := by
    intro n
    induction n with
    | zero =>
      intro ms hlen _
      cases ms with
      | nil => rfl
      | cons m rest => simp at hlen
    | succ n ih =>
      intro ms hlen h
      cases ms with
      | nil => rfl
      | cons m rest =>
        obtain ⟨h1, h2, h3, h4⟩ := h m (List.mem_cons_self _ _)
        have hok : stepOk m content := ⟨h1, by omega, by omega, h3⟩
        have hse : m.pos.toNat ≤ (m.pos + m.len).toNat := by omega
        have he : (m.pos + m.len).toNat ≤ content.length := by omega
        have hext : (extractList content m.pos.toNat (m.pos + m.len).toNat).length
            = (m.pos + m.len).toNat - m.pos.toNat := by
          unfold extractList
          rw [List.length_take, List.length_drop]
          exact Nat.min_eq_left (by omega)
        have hdelta : (m.data.length : Int) - m.len = 0 := by
          rw [h4, hext]
          omega
        have hsplice : spliceAt content m.pos (m.pos + m.len) m.data = content := by
          rw [h4]
          unfold spliceAt extractList
          have hdd : (content.drop m.pos.toNat).drop
              ((m.pos + m.len).toNat - m.pos.toNat) = content.drop (m.pos + m.len).toNat := by
            rw [List.drop_drop]
            congr 1
            omega
          rw [List.append_assoc, ← hdd, List.take_append_drop, List.take_append_drop]
        rw [applyMatchesData_cons, if_pos hok, hdelta, shiftLater_zero, hsplice]
        exact ih rest (by simpa using hlen) (fun m' hm' => h m' (List.mem_cons_of_mem _ hm'))
  exact H ms.length ms rfl h

theorem dedupFirst_const (l : List String) (p : String)
    (h : ∀ q ∈ l, q = p) (hne : l ≠ []) : dedupFirst l = [p] := by
  induction l with
  | nil => exact absurd rfl hne
  | cons q rest ih =>
    have hq : q = p := h q (List.mem_cons_self _ _)
    subst hq
    unfold dedupFirst
    cases rest with
    | nil => rfl
    | cons r rs =>
      rw [ih (fun x hx => h x (List.mem_cons_of_mem _ hx)) (by simp)]
      simp

/-- C6: for every file and every record set produced by the Matcher on
that file, left with its data untouched (each record's data is exactly
the originally matched bytes), applying the record set leaves every
file of the file system byte-for-byte unchanged. -/
theorem identity_patch (re : Regexp) (fs : FS) (path : String) (content : Bytes)
    (ms : List Match) (hc : fs path = some content)
    (hm : FindAllIndexPath re fs path = some ms) :
    ApplyMatches ms fs = some fs := by
  unfold FindAllIndexPath at hm
  rw [hc] at hm
  have hms : ms = ((re.findAllIndex content).zip (re.findAll content)).map
      (fun pr => ⟨path, (pr.1.1 : Int), (pr.1.2 : Int) - (pr.1.1 : Int), pr.2⟩) :=
    (Option.some.inj hm).symm
  rw [findAll_zip, List.map_map] at hms
  have hpt : ∀ m ∈ ms, m.path = path ∧ 0 ≤ m.pos ∧ 0 ≤ m.len
      ∧ m.pos + m.len ≤ (content.length : Int)
      ∧ m.data = extractList content m.pos.toNat (m.pos + m.len).toNat := by
    intro m hmem
    rw [hms] at hmem
    obtain ⟨pr, hpr, rfl⟩ := List.mem_map.mp hmem
    obtain ⟨hb1, hb2⟩ := re.bounds content pr hpr
    refine ⟨rfl, ?_, ?_, ?_, ?_⟩
    · show (0 : Int) ≤ (pr.1 : Int)
      omega
    · show (0 : Int) ≤ (pr.2 : Int) - (pr.1 : Int)
      omega
    · show (pr.1 : Int) + ((pr.2 : Int) - (pr.1 : Int)) ≤ (content.length : Int)
      omega
    · show extractList content pr.1 pr.2
        = extractList content ((pr.1 : Int)).toNat
            (((pr.1 : Int) + ((pr.2 : Int) - (pr.1 : Int))).toNat)
      have e1 : ((pr.1 : Int)).toNat = pr.1 := by omega
      have e2 : (((pr.1 : Int) + ((pr.2 : Int) - (pr.1 : Int)))).toNat = pr.2 := by omega
      rw [e1, e2]
  have happly : applyMatchesData ms content = some content :=
    applyMatchesData_id ms content (fun m hmem => ((hpt m hmem).2))
  cases hmsnil : ms with
  | nil => rfl
  | cons m0 tl =>
    have hpaths : ∀ q ∈ ms.map (fun m => m.path), q = path := by
      intro q hq
      obtain ⟨m, hmem, rfl⟩ := List.mem_map.mp hq
      exact (hpt m hmem).1
    have hdedup : dedupFirst (ms.map fun m => m.path) = [path] :=
      dedupFirst_const _ path hpaths (by rw [hmsnil]; simp)
    have hfilter : (ms.filter fun m => m.path = path) = ms :=
      List.filter_eq_self.mpr (fun m hmem => by simp [(hpt m hmem).1])
    have hupd : (fun p => if p = path then some content else fs p) = fs := by
      funext p'
      by_cases hp : p' = path
      · rw [if_pos hp, hp, hc]
      · rw [if_neg hp]
    rw [← hmsnil]
    unfold ApplyMatches groupMatchesByPath
    rw [hdedup, List.map_cons, List.map_nil, hfilter]
    simp only [applyGroups, applyPathMatches, hc, happly, Option.some_bind,
      Option.map_some', Option.bind_some]
    rw [hupd]

/-- C6 witness: the demo engine's single match on `fsW`, with its data
left as matched. -/
theorem identity_patch_witness :
    ApplyMatches [⟨"w", 0, 1, strB "h"⟩] fsW = some fsW := by
  refine identity_patch demoRe fsW "w" (strB "hello") _ rfl ?_
  decide

/-! ### Grouping and per-path independence (C9) -/

theorem mem_dedupFirst (l : List String) (a : String) : a ∈ dedupFirst l ↔ a ∈ l := by
  induction l with
  | nil => simp [dedupFirst]
  | cons p rest ih =>
    simp only [dedupFirst, List.mem_cons, List.mem_filter, ih]
    constructor
    · rintro (rfl | ⟨hmem, _⟩)
      · exact Or.inl rfl
      · exact Or.inr hmem
    · rintro (rfl | hmem)
      · exact Or.inl rfl
      · by_cases hap : a = p
        · exact Or.inl hap
        · exact Or.inr ⟨hmem, by simpa using hap⟩

theorem dedupFirst_nodup (l : List String) : (dedupFirst l).Nodup := by
  induction l with
  | nil => simp [dedupFirst]
  | cons p rest ih =>
    rw [dedupFirst, List.nodup_cons]
    constructor
    · intro hmem
      have := (List.mem_filter.mp hmem).2
      simp at this
    · exact ih.filter _

theorem applyPathMatches_inv (fs : FS) (p : String) (g : List Match) (fs2 : FS)
    (h : applyPathMatches fs p g = some fs2) :
    ∃ d d2, fs p = some d ∧ applyMatchesData g d = some d2
      ∧ fs2 = fun q => if q = p then some d2 else fs q := by
  unfold applyPathMatches at h
  obtain ⟨d, hread⟩ : ∃ d, fs p = some d := by
    cases hfp : fs p with
    | none => rw [hfp] at h; simp at h
    | some d => exact ⟨d, rfl⟩
  rw [hread, Option.some_bind] at h
  obtain ⟨d2, happ⟩ : ∃ d2, applyMatchesData g d = some d2 := by
    cases hap : applyMatchesData g d with
    | none => rw [hap] at h; simp at h
    | some d2 => exact ⟨d2, rfl⟩
  rw [happ, Option.map_some'] at h
  exact ⟨d, d2, hread, happ, (Option.some.inj h).symm⟩

theorem applyGroups_frame (gs : List (String × List Match)) (fs fs' : FS) (r : String)
    (h : applyGroups gs fs = some fs') (hr : ∀ pg ∈ gs, pg.1 ≠ r) : fs' r = fs r := by
  induction gs generalizing fs with
  | nil => exact congrFun (Option.some.inj h).symm r
  | cons pg rest ih =>
    obtain ⟨p, g⟩ := pg
    rw [applyGroups] at h
    cases hap : applyPathMatches fs p g with
    | none => rw [hap] at h; simp at h
    | some fs2 =>
      rw [hap, Option.some_bind] at h
      obtain ⟨d, d2, _, _, hfs2⟩ := applyPathMatches_inv _ _ _ _ hap
      have hrest := ih fs2 h (fun pg hm => hr pg (List.mem_cons_of_mem _ hm))
      rw [hrest, hfs2]
      have hpr : p ≠ r := hr (p, g) (List.mem_cons_self _ _)
      show (if r = p then some d2 else fs r) = fs r
      rw [if_neg (fun hc => hpr hc.symm)]

theorem applyGroups_at (gs : List (String × List Match)) (fs fs' : FS) (r : String)
    (g : List Match) (h : applyGroups gs fs = some fs')
    (hnd : (gs.map fun pg => pg.1).Nodup) (hmem : (r, g) ∈ gs) :
    ∃ d d2, fs r = some d ∧ applyMatchesData g d = some d2 ∧ fs' r = some d2 := by
  induction gs generalizing fs with
  | nil => simp at hmem
  | cons pg rest ih =>
    obtain ⟨p, g0⟩ := pg
    rw [applyGroups] at h
    cases hap : applyPathMatches fs p g0 with
    | none => rw [hap] at h; simp at h
    | some fs2 =>
      rw [hap, Option.some_bind] at h
      obtain ⟨d, d2, hd, hdd2, hfs2⟩ := applyPathMatches_inv _ _ _ _ hap
      rw [List.map_cons, List.nodup_cons] at hnd
      rcases List.mem_cons.mp hmem with heq | htail
      · have h1 : r = p := congrArg Prod.fst heq
        have h2 : g = g0 := congrArg Prod.snd heq
        subst h1
        subst h2
        have hfr : fs' r = fs2 r := by
          refine applyGroups_frame rest fs2 fs' r h ?_
          intro pg hpg hc
          exact hnd.1 (hc ▸ List.mem_map.mpr ⟨pg, hpg, rfl⟩)
        refine ⟨d, d2, hd, hdd2, ?_⟩
        rw [hfr, hfs2]
        show (if r = r then some d2 else fs r) = some d2
        rw [if_pos rfl]
      · have hrp : r ≠ p := by
          intro hc
          exact hnd.1 (hc ▸ List.mem_map.mpr ⟨(r, g), htail, rfl⟩)
        have hfs2r : fs2 r = fs r := by
          rw [hfs2]
          show (if r = p then some d2 else fs r) = fs r
          rw [if_neg hrp]
        obtain ⟨d', d2', hd', hdd2', hr'⟩ := ih fs2 h hnd.2 htail
        rw [hfs2r] at hd'
        exact ⟨d', d2', hd', hdd2', hr'⟩

theorem groupMatchesByPath_fst (ms : List Match) :
    (groupMatchesByPath ms).map (fun pg => pg.1) = dedupFirst (ms.map fun m => m.path) := by
  unfold groupMatchesByPath
  rw [List.map_map]
  exact List.map_id _

/-- For every path `r`, a successful `ApplyMatches` run gives `r` exactly
the content that applying only `r`'s records (in their input order, i.e.
the stable group) to the original file system would give it. -/
theorem ApplyMatches_per_path (ms : List Match) (fs fs' : FS) (r : String)
    (h : ApplyMatches ms fs = some fs') :
    ∃ fsr, ApplyMatches (ms.filter fun m => m.path = r) fs = some fsr
      ∧ fs' r = fsr r := by
  by_cases hmem : r ∈ ms.map fun m => m.path
  · have hgmem : (r, ms.filter fun m => m.path = r) ∈ groupMatchesByPath ms := by
      unfold groupMatchesByPath
      exact List.mem_map.mpr ⟨r, (mem_dedupFirst _ _).mpr hmem, rfl⟩
    have hnd : ((groupMatchesByPath ms).map fun pg => pg.1).Nodup := by
      rw [groupMatchesByPath_fst]
      exact dedupFirst_nodup _
    obtain ⟨d, d2, hd, hdd2, hr'⟩ := applyGroups_at _ _ _ _ _ h hnd hgmem
    have hgpaths : ∀ m ∈ ms.filter (fun m => m.path = r), m.path = r := by
      intro m hm
      simpa using (List.mem_filter.mp hm).2
    have hgne : ms.filter (fun m => m.path = r) ≠ [] := by
      obtain ⟨m, hmms, hmr⟩ := List.mem_map.mp hmem
      intro hc
      have : m ∈ ms.filter (fun m => m.path = r) :=
        List.mem_filter.mpr ⟨hmms, by simp [hmr]⟩
      rw [hc] at this
      simp at this
    have hgrp : groupMatchesByPath (ms.filter fun m => m.path = r)
        = [(r, ms.filter fun m => m.path = r)] := by
      unfold groupMatchesByPath
      rw [dedupFirst_const _ r ?hall ?hne]
      case hall =>
        intro q hq
        obtain ⟨m, hm, rfl⟩ := List.mem_map.mp hq
        exact hgpaths m hm
      case hne =>
        simpa using hgne
      rw [List.map_cons, List.map_nil]
      congr 2
      exact List.filter_eq_self.mpr (fun m hm => by simp [hgpaths m hm])
    have hap : applyPathMatches fs r (ms.filter fun m => m.path = r)
        = some fun q => if q = r then some d2 else fs q := by
      unfold applyPathMatches
      rw [hd, Option.some_bind, hdd2, Option.map_some']
    refine ⟨fun q => if q = r then some d2 else fs q, ?_, ?_⟩
    · unfold ApplyMatches
      rw [hgrp]
      simp only [applyGroups]
      rw [hap, Option.some_bind]
    · rw [hr']
      show some d2 = (if r = r then some d2 else fs r)
      rw [if_pos rfl]
  · have hfilter : ms.filter (fun m => m.path = r) = [] := by
      rw [List.filter_eq_nil_iff]
      intro m hm hc
      exact hmem (List.mem_map.mpr ⟨m, hm, by simpa using hc⟩)
    refine ⟨fs, by rw [hfilter]; rfl, ?_⟩
    refine applyGroups_frame _ _ _ _ h ?_
    intro pg hpg hc
    have : pg.1 ∈ dedupFirst (ms.map fun m => m.path) := by
      rw [← groupMatchesByPath_fst]
      exact List.mem_map.mpr ⟨pg, hpg, rfl⟩
    rw [mem_dedupFirst] at this
    exact hmem (hc ▸ this)

/-- C9: when a record set holds records for two distinct paths,
interleaved in input order, `ApplyMatches` touches no other file, and
each of the two files ends with exactly the content that applying only
its own records (its stable, input-ordered group) to the original file
system produces: neither file's rewrite is affected by the other's
edits. -/
theorem multi_file_grouping (ms : List Match) (fs fs' : FS) (p q : String)
    (hpq : p ≠ q) (hall : ∀ m ∈ ms, m.path = p ∨ m.path = q)
    (h : ApplyMatches ms fs = some fs') :
    (∀ r, r ≠ p → r ≠ q → fs' r = fs r)
    ∧ (∃ fsp, ApplyMatches (ms.filter fun m => m.path = p) fs = some fsp
        ∧ fs' p = fsp p)
    ∧ (∃ fsq, ApplyMatches (ms.filter fun m => m.path = q) fs = some fsq
        ∧ fs' q = fsq q) := by
  refine ⟨?_, ApplyMatches_per_path ms fs fs' p h, ApplyMatches_per_path ms fs fs' q h⟩
  intro r hrp hrq
  refine applyGroups_frame _ _ _ _ h ?_
  intro pg hpg hc
  have : pg.1 ∈ dedupFirst (ms.map fun m => m.path) := by
    rw [← groupMatchesByPath_fst]
    exact List.mem_map.mpr ⟨pg, hpg, rfl⟩
  rw [mem_dedupFirst] at this
  obtain ⟨m, hm, hmp⟩ := List.mem_map.mp this
  rcases hall m hm with h1 | h1
  · exact hrp (hc ▸ hmp ▸ h1 ▸ rfl)
  · exact hrq (hc ▸ hmp ▸ h1 ▸ rfl)

/-- C9 witness: records for "a" and "b" interleaved, applied to the
two-file system `fsW2`. -/
theorem multi_file_grouping_witness :
    (∀ r, r ≠ "a" → r ≠ "b" →
      (fun p => if p = "b" then some (strB "YZ")
        else if p = "a" then some (strB "Xbc!") else fsW2 p) r = fsW2 r)
    ∧ (∃ fsp, ApplyMatches
        (([⟨"a", 0, 1, strB "X"⟩, ⟨"b", 0, 2, strB "YZ"⟩, ⟨"a", 3, 0, strB "!"⟩].filter
          fun m => m.path = "a")) fsW2 = some fsp
        ∧ (fun p => if p = "b" then some (strB "YZ")
            else if p = "a" then some (strB "Xbc!") else fsW2 p) "a" = fsp "a")
    ∧ (∃ fsq, ApplyMatches
        (([⟨"a", 0, 1, strB "X"⟩, ⟨"b", 0, 2, strB "YZ"⟩, ⟨"a", 3, 0, strB "!"⟩].filter
          fun m => m.path = "b")) fsW2 = some fsq
        ∧ (fun p => if p = "b" then some (strB "YZ")
            else if p = "a" then some (strB "Xbc!") else fsW2 p) "b" = fsq "b") :=
  multi_file_grouping
    [⟨"a", 0, 1, strB "X"⟩, ⟨"b", 0, 2, strB "YZ"⟩, ⟨"a", 3, 0, strB "!"⟩] fsW2
    (fun p => if p = "b" then some (strB "YZ")
      else if p = "a" then some (strB "Xbc!") else fsW2 p)
    "a" "b" (by decide) (by decide) rfl

/-! ### Scanner lemmas (C5, C4, C3) -/

theorem startsWithB_append_self (p r : List Char) : startsWithB p (p ++ r) = true := by
  induction p with
  | nil => rfl
  | cons c cs ih => simp [startsWithB, ih]

theorem startsWithB_iff (p t : List Char) :
    startsWithB p t = true ↔ ∃ r, t = p ++ r := by
  induction p generalizing t with
  | nil => simpa [startsWithB] using ⟨t, rfl⟩
  | cons c cs ih =>
    cases t with
    | nil =>
      simp [startsWithB]
    | cons a as =>
      simp only [startsWithB, Bool.and_eq_true, beq_iff_eq, ih]
      constructor
      · rintro ⟨rfl, r, rfl⟩
        exact ⟨r, rfl⟩
      · rintro ⟨r, hr⟩
        obtain ⟨h1, h2⟩ := List.cons.inj hr
        exact ⟨h1.symm, r, h2⟩

theorem startsWithB_append_left (q l r : List Char) (h : q.length ≤ l.length) :
    startsWithB q (l ++ r) = startsWithB q l := by
  induction q generalizing l with
  | nil => rfl
  | cons c cs ih =>
    cases l with
    | nil => simp at h
    | cons a as =>
      simp only [List.cons_append, startsWithB, List.append_eq]
      rw [ih as (by simpa using h)]

theorem occursIn_cons (pat : List Char) (c : Char) (t : List Char) :
    occursIn pat (c :: t) = (startsWithB pat (c :: t) || occursIn pat t) := by
  unfold occursIn
  cases h : startsWithB pat (c :: t) with
  | true =>
    rw [findSub, if_pos h]
    rfl
  | false =>
    rw [findSub, if_neg (by simp [h]), Bool.false_or]
    cases findSub pat t <;> rfl

theorem findSub_zero (pat t : List Char) (h : startsWithB pat t = true) (ht : t ≠ []) :
    findSub pat t = some 0 := by
  cases t with
  | nil => exact absurd rfl ht
  | cons c cs => simp [findSub, h]

theorem findSub_boundary (pat body rest : List Char) (hpat : pat ≠ [])
    (hno : occursIn pat body = false)
    (hover : ∀ j < pat.length, 1 ≤ j → startsWithB (pat.drop j) pat = false) :
    findSub pat (body ++ (pat ++ rest)) = some body.length := by
  induction body with
  | nil =>
    rw [List.nil_append]
    refine findSub_zero pat (pat ++ rest) (startsWithB_append_self pat rest) ?_
    intro hc
    exact hpat (List.append_eq_nil.mp hc).1
  | cons c bs ih =>
    rw [occursIn_cons, Bool.or_eq_false_iff] at hno
    have hnostart : startsWithB pat ((c :: bs) ++ (pat ++ rest)) = false := by
      by_cases hle : pat.length ≤ (c :: bs).length
      · rw [startsWithB_append_left pat (c :: bs) (pat ++ rest) hle]
        exact hno.1
      · have hgt : (c :: bs).length < pat.length := Nat.lt_of_not_le hle
        by_contra hcon
        rw [Bool.not_eq_false, startsWithB_iff] at hcon
        obtain ⟨r, hr⟩ := hcon
        have htake : (c :: bs) ++ (pat ++ rest).take (pat.length - (c :: bs).length)
            = pat := by
          have h1 := congrArg (List.take pat.length) hr
          rw [List.take_append_eq_append_take,
            List.take_of_length_le (Nat.le_of_lt hgt), List.take_left] at h1
          exact h1
        have hdrop : pat.drop (c :: bs).length
            = (pat ++ rest).take (pat.length - (c :: bs).length) := by
          conv_lhs => rw [← htake]
          exact List.drop_left _ _
        have hsw : startsWithB (pat.drop (c :: bs).length) (pat ++ rest) = true := by
          rw [startsWithB_iff]
          refine ⟨(pat ++ rest).drop (pat.length - (c :: bs).length), ?_⟩
          rw [hdrop, List.take_append_drop]
        rw [startsWithB_append_left _ pat rest
          (by simpa using Nat.sub_le pat.length (c :: bs).length)] at hsw
        rw [hover (c :: bs).length hgt (by simp)] at hsw
        exact Bool.false_ne_true hsw
    have hnostart' : startsWithB pat (c :: (bs ++ (pat ++ rest))) = false := by
      rw [← List.cons_append]
      exact hnostart
    rw [List.cons_append, findSub, if_neg (by simp [hnostart']), ih hno.2,
      Option.map_some']
    simp

theorem takeWhile_header (hdr : List Char) (y : List Char) (h : ∀ c ∈ hdr, ¬ c = '\n') :
    (hdr ++ '\n' :: y).takeWhile (fun c => c != '\n') = hdr := by
  induction hdr with
  | nil => simp [List.takeWhile_cons]
  | cons c cs ih =>
    have hc : (c != '\n') = true := by
      simpa using h c (List.mem_cons_self _ _)
    simp only [List.cons_append, List.takeWhile_cons, hc, if_true]
    rw [ih (fun x hx => h x (List.mem_cons_of_mem _ hx))]

theorem drop_header (hdr : List Char) (y : List Char) :
    (hdr ++ '\n' :: y).drop (hdr.length + 1) = y := by
  induction hdr with
  | nil => rfl
  | cons c cs ih => simpa using ih

theorem endMarker_ne_nil : endMarker ≠ [] := by decide

theorem endMarker_no_overlap :
    ∀ j < endMarker.length, 1 ≤ j → startsWithB (endMarker.drop j) endMarker = false := by
  decide

theorem beginMarker_length : beginMarker.length = 11 := by decide

theorem endMarker_length : endMarker.length = 9 := by decide

/-- The anchored regex attempt on a text that starts with a well-formed
block: it matches, capturing exactly the header line and the body up to
the first `"\n#bed:end"`. -/
theorem tryMatchAt_block (hdr body rest : List Char)
    (hne : hdr ≠ []) (hnl : ∀ c ∈ hdr, ¬ c = '\n')
    (hnb : occursIn endMarker body = false) :
    tryMatchAt (beginMarker ++ (hdr ++ ('\n' :: (body ++ (endMarker ++ rest)))))
      = some (hdr, body,
          beginMarker.length + hdr.length + 1 + body.length + endMarker.length) := by
  have hemp : hdr.isEmpty = false := by
    cases hdr with
    | nil => exact absurd rfl hne
    | cons a b => rfl
  unfold tryMatchAt
  rw [if_pos (startsWithB_append_self _ _), List.drop_left]
  unfold tryMatchAfterBegin
  rw [takeWhile_header hdr _ hnl, hemp, if_neg Bool.false_ne_true,
    if_pos (show hdr.length < (hdr ++ '\n' :: (body ++ (endMarker ++ rest))).length by
      simp), drop_header]
  unfold tryMatchBody
  rw [findSub_boundary endMarker body rest endMarker_ne_nil hnb endMarker_no_overlap]
  show some (hdr, (body ++ (endMarker ++ rest)).take body.length,
      beginMarker.length + hdr.length + 1 + body.length + endMarker.length) = _
  rw [List.take_left]

theorem scanBlocksF_nil (f : Nat) : scanBlocksF f [] = [] := by
  cases f <;> rfl

theorem scanBlocksF_congr (f1 : Nat) :
    ∀ (f2 : Nat) (t : List Char), t.length ≤ f1 → t.length ≤ f2 →
      scanBlocksF f1 t = scanBlocksF f2 t := by
  induction f1 with
  | zero =>
    intro f2 t h1 _
    have ht : t = [] := List.length_eq_zero.mp (Nat.le_zero.mp h1)
    subst ht
    rw [scanBlocksF_nil, scanBlocksF_nil]
  | succ n ih =>
    intro f2 t h1 h2
    cases t with
    | nil => rw [scanBlocksF_nil, scanBlocksF_nil]
    | cons c rest =>
      cases f2 with
      | zero => simp at h2
      | succ m =>
        simp only [scanBlocksF]
        cases htry : tryMatchAt (c :: rest) with
        | some v =>
          obtain ⟨hdr, body, k⟩ := v
          simp only
          congr 1
          have hd : (rest.drop (k - 1)).length ≤ rest.length := by
            rw [List.length_drop]
            omega
          have hn : rest.length ≤ n := by simpa using h1
          have hm : rest.length ≤ m := by simpa using h2
          exact ih m (rest.drop (k - 1)) (le_trans hd hn) (le_trans hd hm)
        | none =>
          exact ih m rest (by simpa using h1) (by simpa using h2)

theorem scanBlocks_cons_some {c : Char} {t hdr body : List Char} {n : Nat}
    (h : tryMatchAt (c :: t) = some (hdr, body, n)) :
    scanBlocks (c :: t) = (hdr, body) :: scanBlocks (t.drop (n - 1)) := by
  unfold scanBlocks
  simp only [List.length_cons, scanBlocksF, h]
  congr 1
  refine scanBlocksF_congr t.length _ _ ?_ (Nat.le_refl _)
  rw [List.length_drop]
  omega

theorem scanBlocks_cons_none {c : Char} {t : List Char}
    (h : tryMatchAt (c :: t) = none) : scanBlocks (c :: t) = scanBlocks t := by
  unfold scanBlocks
  simp only [List.length_cons, scanBlocksF, h]

/-- Scanning a text that starts with a well-formed block: the block's
captures are emitted and scanning resumes right after `#bed:end`. -/
theorem scanBlocks_block (hdr body rest : List Char)
    (hne : hdr ≠ []) (hnl : ∀ c ∈ hdr, ¬ c = '\n')
    (hnb : occursIn endMarker body = false) :
    scanBlocks (beginMarker ++ (hdr ++ ('\n' :: (body ++ (endMarker ++ rest)))))
      = (hdr, body) :: scanBlocks rest := by
  have htry := tryMatchAt_block hdr body rest hne hnl hnb
  have hbm : beginMarker = '#' :: strB "bed:begin " := by decide
  rw [hbm, List.cons_append] at htry ⊢
  rw [scanBlocks_cons_some htry]
  congr 1
  have hassoc : strB "bed:begin " ++ (hdr ++ ('\n' :: (body ++ (endMarker ++ rest))))
      = (strB "bed:begin " ++ (hdr ++ ('\n' :: (body ++ endMarker)))) ++ rest := by
    simp [List.append_assoc]
  rw [hassoc, List.drop_left']
  have h10 : (strB "bed:begin ").length = 10 := by decide
  simp only [List.length_append, List.length_cons, h10, beginMarker_length,
    endMarker_length]
  omega

/-- C5 (amended): when decoding, a block's body extends from the newline
ending the header line up to the *first occurrence* of the nine-byte
sequence `"\n#bed:end"` (`endMarker`) — that occurrence need not be a
whole line; whatever follows it (`rest`, e.g. the remainder of a line
`#bed:endXYZ`) is left for the next scan — and exactly the one newline
of that occurrence (the newline the encoder writes after the data) is
stripped from the body: the capture is `body`, not `body ++ "\n"`.
(The claim's whole-line reading is refuted by
`body_terminator_counterexample`.) -/
theorem block_body_extent (hdr body rest : List Char)
    (hne : hdr ≠ []) (hnl : ∀ c ∈ hdr, ¬ c = '\n')
    (hnb : occursIn endMarker body = false) :
    scanBlocks (beginMarker ++ (hdr ++ ('\n' :: (body ++ (endMarker ++ rest)))))
      = (hdr, body) :: scanBlocks rest :=
  scanBlocks_block hdr body rest hne hnl hnb

/-- C5 witness: the terminator occurrence sits mid-line (`#bed:endXYZ`);
the block still ends there and the body is exactly "abc". -/
theorem block_body_extent_witness :
    scanBlocks (beginMarker ++ (strB "h" ++ ('\n' :: (strB "abc" ++ (endMarker ++ strB "XYZ")))))
      = (strB "h", strB "abc") :: scanBlocks (strB "XYZ") :=
  block_body_extent (strB "h") (strB "abc") (strB "XYZ") (by decide) (by decide) (by decide)

/-- C5 counterexample: in
`#bed:begin {"path":"a","pos":0,"len":3}\nabc\n#bed:endXYZ\n#bed:end`
the line `#bed:endXYZ` merely begins with `#bed:end`, yet it terminates
the block: the decoded body is "abc", not the claim's
"abc\n#bed:endXYZ" (which would extend to the next literal `#bed:end`
line). -/
theorem body_terminator_counterexample :
    ParseMatches
        (strB "#bed:begin \x7b\"path\":\"a\",\"pos\":0,\"len\":3\x7d\nabc\n#bed:endXYZ\n#bed:end")
      = some [⟨"a", 0, 3, strB "abc"⟩]
    ∧ strB "abc" ≠ strB "abc\n#bed:endXYZ" := by
  decide

/-- Any bad block fails the whole `parseBlocks` run. -/
theorem parseBlocks_none (bs : List (List Char × List Char))
    (h : ∃ b ∈ bs, parseBlock b = none) : parseBlocks bs = none := by
  induction bs with
  | nil => simp at h
  | cons b rest ih =>
    obtain ⟨b0, hmem, hnone⟩ := h
    rcases List.mem_cons.mp hmem with rfl | htail
    · rw [parseBlocks, hnone]
      rfl
    · rw [parseBlocks, ih ⟨b0, htail, hnone⟩]
      cases parseBlock b <;> rfl

/-- C4 (amended): if any block found in the text has a header that does
not parse as JSON, the whole decode call fails and returns no records —
never a partial result.  But text in which no begin/end-delimited block
is found decodes to zero records *without* an error, and a header that
is valid JSON with missing fields also does not fail (see
`malformed_header_counterexample`). -/
theorem malformed_header_rejection (t : List Char) :
    ((∃ b ∈ scanBlocks t, parseBlock b = none) → ParseMatches t = none)
    ∧ (scanBlocks t = [] → ParseMatches t = some []) := by
  constructor
  · intro h
    exact parseBlocks_none _ h
  · intro h
    unfold ParseMatches
    rw [h]
    rfl

/-- C4 witness: a block whose header `nope` is not JSON fails the whole
decode; markerless text decodes to zero records. -/
theorem malformed_header_rejection_witness :
    ParseMatches (strB "#bed:begin nope\nX\n#bed:end") = none
    ∧ ParseMatches (strB "hello") = some [] :=
  ⟨(malformed_header_rejection (strB "#bed:begin nope\nX\n#bed:end")).1 (by decide),
    (malformed_header_rejection (strB "hello")).2 (by decide)⟩

/-- C4 counterexample: a block whose header is `{}` — valid JSON missing
all of `path`, `pos`, `len` — decodes *successfully* to the zero-value
record, and text with no begin/end markers decodes to zero records with
no error; the claim says both must fail the whole decode call. -/
theorem malformed_header_counterexample :
    ParseMatches (strB "#bed:begin \x7b\x7d\nX\n#bed:end") = some [⟨"", 0, 0, strB "X"⟩]
    ∧ ParseMatches (strB "no markers here") = some [] := by
  decide

/-! ### Decimal digits (C3) -/

theorem natDigitsF_congr (f1 : Nat) :
    ∀ (f2 n : Nat), n < f1 → n < f2 → natDigitsF f1 n = natDigitsF f2 n := by
  induction f1 with
  | zero => intro f2 n h1 _; omega
  | succ a ih =>
    intro f2 n h1 h2
    cases f2 with
    | zero => omega
    | succ b =>
      simp only [natDigitsF]
      by_cases h : n < 10
      · rw [if_pos h, if_pos h]
      · rw [if_neg h, if_neg h]
        congr 1
        exact ih b (n / 10) (by omega) (by omega)

theorem natDigits_lt10 (n : Nat) (h : n < 10) : natDigits n = [digitChar n] := by
  unfold natDigits
  rw [natDigitsF, if_pos h]

theorem natDigits_ge10 (n : Nat) (h : 10 ≤ n) :
    natDigits n = natDigits (n / 10) ++ [digitChar (n % 10)] := by
  unfold natDigits
  rw [natDigitsF, if_neg (by omega)]
  congr 1
  exact natDigitsF_congr n (n / 10 + 1) (n / 10) (by omega) (by omega)

theorem digitChar_toNat (k : Nat) (h : k < 10) : (digitChar k).toNat = 48 + k := by
  interval_cases k <;> decide

theorem isDigitCh_digitChar (k : Nat) (h : k < 10) : isDigitCh (digitChar k) = true := by
  interval_cases k <;> decide

theorem natDigits_ne_nil (n : Nat) : natDigits n ≠ [] := by
  by_cases h : n < 10
  · rw [natDigits_lt10 n h]
    simp
  · rw [natDigits_ge10 n (by omega)]
    simp

theorem natDigits_all_digits (n : Nat) : ∀ c ∈ natDigits n, isDigitCh c = true := by
  induction n using Nat.strong_induction_on with
  | _ n ih =>
    by_cases h : n < 10
    · rw [natDigits_lt10 n h]
      intro c hc
      rw [List.mem_singleton] at hc
      subst hc
      exact isDigitCh_digitChar n h
    · rw [natDigits_ge10 n (by omega)]
      intro c hc
      rcases List.mem_append.mp hc with hc | hc
      · exact ih (n / 10) (by omega) c hc
      · rw [List.mem_singleton] at hc
        subst hc
        exact isDigitCh_digitChar (n % 10) (by omega)

theorem digitsToNat_append_one (ds : List Char) (c : Char) :
    digitsToNat (ds ++ [c]) = digitsToNat ds * 10 + (c.toNat - 48) := by
  simp [digitsToNat, List.foldl_append]

theorem digitsToNat_natDigits (n : Nat) : digitsToNat (natDigits n) = n := by
  induction n using Nat.strong_induction_on with
  | _ n ih =>
    by_cases h : n < 10
    · rw [natDigits_lt10 n h]
      show 0 * 10 + ((digitChar n).toNat - 48) = n
      rw [digitChar_toNat n h]
      omega
    · rw [natDigits_ge10 n (by omega), digitsToNat_append_one,
        ih (n / 10) (by omega), digitChar_toNat (n % 10) (by omega)]
      omega

theorem takeWhile_all_append (p : Char → Bool) (l r : List Char)
    (h : ∀ c ∈ l, p c = true) :
    (l ++ r).takeWhile p = l ++ r.takeWhile p := by
  induction l with
  | nil => rfl
  | cons c cs ih =>
    simp only [List.cons_append, List.takeWhile_cons, h c (List.mem_cons_self _ _), if_true]
    rw [ih (fun x hx => h x (List.mem_cons_of_mem _ hx))]

theorem parseNatTok_digits (n : Nat) (r : List Char)
    (hr : r.takeWhile isDigitCh = []) :
    parseNatTok (natDigits n ++ r) = some (n, r) := by
  have htw : (natDigits n ++ r).takeWhile isDigitCh = natDigits n := by
    rw [takeWhile_all_append isDigitCh _ _ (natDigits_all_digits n), hr, List.append_nil]
  have hemp : (natDigits n).isEmpty = false := by
    cases hd : natDigits n with
    | nil => exact absurd hd (natDigits_ne_nil n)
    | cons a b => rfl
  unfold parseNatTok
  rw [htw, hemp, if_neg Bool.false_ne_true, digitsToNat_natDigits, List.drop_left]

/-! ### JSON string round trip (C3) -/

theorem parseJString_quoteHead (rest : List Char) :
    parseJString ('"' :: rest) = some ([], rest) := by
  rw [parseJString.eq_def]
  simp

theorem parseJString_esc (e : Char) (rest2 : List Char) :
    parseJString ('\\' :: e :: rest2)
      = match unescapeChar e with
        | none => none
        | some c2 => (parseJString rest2).map fun pr => (c2 :: pr.1, pr.2) := by
  rw [parseJString.eq_def]
  simp

theorem parseJString_other (c : Char) (rest : List Char)
    (h1 : ¬ c = '"') (h2 : ¬ c = '\\') :
    parseJString (c :: rest) = (parseJString rest).map fun pr => (c :: pr.1, pr.2) := by
  rw [parseJString.eq_def]
  simp only [if_neg h1, if_neg h2]

theorem parseJString_quote (s r : List Char) :
    parseJString (jsonQuote s ++ ('"' :: r)) = some (s, r) := by
  induction s with
  | nil =>
    rw [show jsonQuote [] = [] from rfl, List.nil_append, parseJString_quoteHead]
  | cons c s ih =>
    have hq : jsonQuote (c :: s) = escapeChar c ++ jsonQuote s := by
      simp [jsonQuote]
    rw [hq, List.append_assoc]
    by_cases h1 : c = '"'
    · subst h1
      rw [show escapeChar '"' = ['\\', '"'] from by decide]
      simp only [List.cons_append, List.nil_append]
      rw [parseJString_esc]
      simp [unescapeChar, ih]
    · by_cases h2 : c = '\\'
      · subst h2
        rw [show escapeChar '\\' = ['\\', '\\'] from by decide]
        simp only [List.cons_append, List.nil_append]
        rw [parseJString_esc]
        simp [unescapeChar, ih]
      · by_cases h3 : c = '\n'
        · subst h3
          rw [show escapeChar '\n' = ['\\', 'n'] from by decide]
          simp only [List.cons_append, List.nil_append]
          rw [parseJString_esc]
          simp [unescapeChar, ih]
        · by_cases h4 : c = '\t'
          · subst h4
            rw [show escapeChar '\t' = ['\\', 't'] from by decide]
            simp only [List.cons_append, List.nil_append]
            rw [parseJString_esc]
            simp [unescapeChar, ih]
          · by_cases h5 : c = '\r'
            · subst h5
              rw [show escapeChar '\r' = ['\\', 'r'] from by decide]
              simp only [List.cons_append, List.nil_append]
              rw [parseJString_esc]
              simp [unescapeChar, ih]
            · rw [show escapeChar c = [c] from by
                  simp [escapeChar, h1, h2, h3, h4, h5]]
              simp only [List.cons_append, List.nil_append]
              rw [parseJString_other c _ h1 h2, ih]
              rfl

/-! ### Header round trip (C3) -/

theorem skipWs_cons (c : Char) (t : List Char) :
    skipWs (c :: t) = if isWs c then skipWs t else c :: t := by
  simp [skipWs, List.dropWhile_cons]

theorem parseJString_path (r : List Char) :
    parseJString ('p' :: 'a' :: 't' :: 'h' :: '"' :: r) = some (strB "path", r) := by
  rw [parseJString_other _ _ (by decide) (by decide),
    parseJString_other _ _ (by decide) (by decide),
    parseJString_other _ _ (by decide) (by decide),
    parseJString_other _ _ (by decide) (by decide), parseJString_quoteHead]
  rfl

theorem parseJString_posKey (r : List Char) :
    parseJString ('p' :: 'o' :: 's' :: '"' :: r) = some (strB "pos", r) := by
  rw [parseJString_other _ _ (by decide) (by decide),
    parseJString_other _ _ (by decide) (by decide),
    parseJString_other _ _ (by decide) (by decide), parseJString_quoteHead]
  rfl

theorem parseJString_lenKey (r : List Char) :
    parseJString ('l' :: 'e' :: 'n' :: '"' :: r) = some (strB "len", r) := by
  rw [parseJString_other _ _ (by decide) (by decide),
    parseJString_other _ _ (by decide) (by decide),
    parseJString_other _ _ (by decide) (by decide), parseJString_quoteHead]
  rfl

theorem parseJVal_str (s r : List Char) :
    parseJVal ('"' :: (jsonQuote s ++ ('"' :: r))) = some (JVal.str s, r) := by
  unfold parseJVal
  rw [skipWs_cons, show isWs '"' = false from by decide, if_neg Bool.false_ne_true]
  simp [parseJString_quote]

theorem parseJVal_digits (n : Nat) (r : List Char)
    (hr : r.takeWhile isDigitCh = []) :
    parseJVal (natDigits n ++ r) = some (JVal.num (n : Int), r) := by
  obtain ⟨d, ds, hds⟩ : ∃ d ds, natDigits n = d :: ds := by
    cases hd : natDigits n with
    | nil => exact absurd hd (natDigits_ne_nil n)
    | cons a b => exact ⟨a, b, rfl⟩
  have hdig : isDigitCh d = true :=
    natDigits_all_digits n d (by rw [hds]; exact List.mem_cons_self _ _)
  have hne : ∀ x : Char, isDigitCh x = false → ¬ d = x := fun x hx he => by
    rw [he, hx] at hdig
    exact Bool.false_ne_true hdig
  have hws : isWs d = false := by
    unfold isWs
    rw [beq_false_of_ne (hne ' ' (by decide)), beq_false_of_ne (hne '\t' (by decide)),
      beq_false_of_ne (hne '\n' (by decide)), beq_false_of_ne (hne '\r' (by decide))]
    rfl
  unfold parseJVal
  rw [hds, List.cons_append, skipWs_cons, hws, if_neg Bool.false_ne_true]
  simp only [if_neg (hne '"' (by decide)), if_neg (hne '-' (by decide)), hdig, if_true]
  rw [show d :: (ds ++ r) = natDigits n ++ r from by rw [hds, List.cons_append],
    parseNatTok_digits n r hr]
  rfl

theorem parseMembers_lenMember (f : Nat) (nlen : Nat) :
    parseMembers (f + 1)
      ('"' :: 'l' :: 'e' :: 'n' :: '"' :: ':' :: (natDigits nlen ++ [rbrace]))
      = some ([(strB "len", JVal.num (nlen : Int))], []) := by
  rw [parseMembers.eq_def]
  simp only []
  rw [skipWs_cons, show isWs '"' = false from by decide, if_neg Bool.false_ne_true]
  simp only [if_pos rfl, parseJString_lenKey]
  rw [skipWs_cons, show isWs ':' = false from by decide, if_neg Bool.false_ne_true]
  simp only [parseJVal_digits nlen [rbrace] (by decide)]
  rw [skipWs_cons, show isWs rbrace = false from by decide, if_neg Bool.false_ne_true]
  simp only [if_neg (show ¬ rbrace = ',' from by decide), if_pos rfl]
  simp

theorem parseMembers_posLen (f : Nat) (npos nlen : Nat) :
    parseMembers (f + 1 + 1)
      ('"' :: 'p' :: 'o' :: 's' :: '"' :: ':' ::
        (natDigits npos ++ (',' :: '"' :: 'l' :: 'e' :: 'n' :: '"' :: ':' ::
          (natDigits nlen ++ [rbrace]))))
      = some ([(strB "pos", JVal.num (npos : Int)),
          (strB "len", JVal.num (nlen : Int))], []) := by
  rw [parseMembers.eq_def]
  simp only []
  rw [skipWs_cons, show isWs '"' = false from by decide, if_neg Bool.false_ne_true]
  simp only [if_pos rfl, parseJString_posKey]
  rw [skipWs_cons, show isWs ':' = false from by decide, if_neg Bool.false_ne_true]
  have hcomma : (',' :: '"' :: 'l' :: 'e' :: 'n' :: '"' :: ':' ::
      (natDigits nlen ++ [rbrace])).takeWhile isDigitCh = [] := by
    rw [List.takeWhile_cons, show isDigitCh ',' = false from by decide,
      if_neg Bool.false_ne_true]
  simp only [parseJVal_digits npos (',' :: '"' :: 'l' :: 'e' :: 'n' :: '"' :: ':' ::
    (natDigits nlen ++ [rbrace])) hcomma]
  rw [skipWs_cons, show isWs ',' = false from by decide, if_neg Bool.false_ne_true]
  simp only [if_pos rfl, parseMembers_lenMember f nlen]
  rfl

theorem parseMembers_header (f : Nat) (p : List Char) (npos nlen : Nat) :
    parseMembers (f + 1 + 1 + 1)
      ('"' :: 'p' :: 'a' :: 't' :: 'h' :: '"' :: ':' :: '"' ::
        (jsonQuote p ++ ('"' :: ',' :: '"' :: 'p' :: 'o' :: 's' :: '"' :: ':' ::
          (natDigits npos ++ (',' :: '"' :: 'l' :: 'e' :: 'n' :: '"' :: ':' ::
            (natDigits nlen ++ [rbrace]))))))
      = some ([(strB "path", JVal.str p), (strB "pos", JVal.num (npos : Int)),
          (strB "len", JVal.num (nlen : Int))], []) := by
  rw [parseMembers.eq_def]
  simp only []
  rw [skipWs_cons, show isWs '"' = false from by decide, if_neg Bool.false_ne_true]
  simp only [if_pos rfl, parseJString_path]
  rw [skipWs_cons, show isWs ':' = false from by decide, if_neg Bool.false_ne_true]
  simp only [parseJVal_str]
  rw [skipWs_cons, show isWs ',' = false from by decide, if_neg Bool.false_ne_true]
  simp only [if_pos rfl, parseMembers_posLen f npos nlen]
  rfl

theorem extractFields_header (p : List Char) (ipos ilen : Int) :
    extractFields [(strB "path", JVal.str p), (strB "pos", JVal.num ipos),
        (strB "len", JVal.num ilen)] ("", 0, 0)
      = some (String.mk p, ipos, ilen) := by
  rfl

theorem intStr_of_nonneg (i : Int) (h : 0 ≤ i) : intStr i = natDigits i.toNat := by
  unfold intStr
  rw [if_neg (by omega)]

theorem parseHeader_marshal (m : Match) (hpos : 0 ≤ m.pos) (hlen : 0 ≤ m.len) :
    parseHeader (marshalHeader m) = some (m.path, m.pos, m.len) := by
  unfold parseHeader
  obtain ⟨g, hg⟩ : ∃ g, (marshalHeader m).length + 1 = g + 1 + 1 + 1 :=
    ⟨(marshalHeader m).length - 2, by
      have h2 : 2 ≤ (marshalHeader m).length := by
        simp [marshalHeader]
      omega⟩
  rw [hg]
  rw [show marshalHeader m = lbrace :: '"' :: 'p' :: 'a' :: 't' :: 'h' :: '"' :: ':' :: '"' ::
      (jsonQuote m.path.toList ++ ('"' :: ',' :: '"' :: 'p' :: 'o' :: 's' :: '"' :: ':' ::
        (natDigits m.pos.toNat ++ (',' :: '"' :: 'l' :: 'e' :: 'n' :: '"' :: ':' ::
          (natDigits m.len.toNat ++ [rbrace]))))) from by
    unfold marshalHeader
    rw [intStr_of_nonneg _ hpos, intStr_of_nonneg _ hlen]]
  rw [skipWs_cons, show isWs lbrace = false from by decide, if_neg Bool.false_ne_true]
  simp only [if_pos rfl]
  rw [skipWs_cons, show isWs '"' = false from by decide, if_neg Bool.false_ne_true]
  simp only [if_neg (show ¬ '"' = rbrace from by decide)]
  rw [parseMembers_header g m.path.toList m.pos.toNat m.len.toNat]
  simp only [skipWs, List.dropWhile_nil, List.isEmpty_nil, if_pos rfl,
    extractFields_header]
  have hstr : String.mk m.path.toList = m.path := rfl
  rw [hstr, Int.toNat_of_nonneg hpos, Int.toNat_of_nonneg hlen]
  simp

/-! ### Full round trip (C3) -/

theorem marshalHeader_ne_nil (m : Match) : marshalHeader m ≠ [] := by
  unfold marshalHeader
  simp

theorem jsonQuote_no_newline (s : List Char) : ∀ c ∈ jsonQuote s, ¬ c = '\n' := by
  intro c hc
  unfold jsonQuote at hc
  rw [List.mem_flatten] at hc
  obtain ⟨l, hl, hcl⟩ := hc
  obtain ⟨x, _, rfl⟩ := List.mem_map.mp hl
  unfold escapeChar at hcl
  split_ifs at hcl with h1 h2 h3 h4 h5
  · simp only [List.mem_cons, List.mem_singleton] at hcl
    rcases hcl with rfl | rfl | h
    · decide
    · decide
    · simp at h
  · simp only [List.mem_cons, List.mem_singleton] at hcl
    rcases hcl with rfl | rfl | h
    · decide
    · decide
    · simp at h
  · simp only [List.mem_cons, List.mem_singleton] at hcl
    rcases hcl with rfl | rfl | h
    · decide
    · decide
    · simp at h
  · simp only [List.mem_cons, List.mem_singleton] at hcl
    rcases hcl with rfl | rfl | h
    · decide
    · decide
    · simp at h
  · simp only [List.mem_cons, List.mem_singleton] at hcl
    rcases hcl with rfl | rfl | h
    · decide
    · decide
    · simp at h
  · simp only [List.mem_singleton] at hcl
    subst hcl
    exact h3

theorem natDigits_no_newline (n : Nat) : ∀ c ∈ natDigits n, ¬ c = '\n' := by
  intro c hc he
  have hd := natDigits_all_digits n c hc
  subst he
  exact absurd hd (by decide)

theorem intStr_no_newline (i : Int) : ∀ c ∈ intStr i, ¬ c = '\n' := by
  intro c hc
  unfold intStr at hc
  split_ifs at hc
  · rcases List.mem_cons.mp hc with rfl | h
    · decide
    · exact natDigits_no_newline _ c h
  · exact natDigits_no_newline _ c hc

theorem marshalHeader_no_newline (m : Match) : ∀ c ∈ marshalHeader m, ¬ c = '\n' := by
  intro c hc he
  subst he
  have hlb : ¬ ('\n' = lbrace) := by decide
  have hrb : ¬ ('\n' = rbrace) := by decide
  simp [marshalHeader, hlb, hrb] at hc
  rcases hc with h | h | h
  · exact jsonQuote_no_newline _ '\n' h rfl
  · exact intStr_no_newline m.pos '\n' h rfl
  · exact intStr_no_newline m.len '\n' h rfl

theorem tryMatchAt_newline (t : List Char) : tryMatchAt ('\n' :: t) = none := by
  unfold tryMatchAt
  rw [show startsWithB beginMarker ('\n' :: t) = false from by
      rw [show beginMarker = '#' :: strB "bed:begin " from by decide]
      simp [startsWithB],
    if_neg Bool.false_ne_true]

theorem scanBlocks_writeMatchFile (ms : List Match)
    (h : ∀ m ∈ ms, occursIn endMarker m.data = false) :
    scanBlocks (writeMatchFile ms) = ms.map fun m => (marshalHeader m, m.data) := by
  induction ms with
  | nil => rfl
  | cons m tl ih =>
    have hshape : writeMatchFile (m :: tl)
        = beginMarker ++ (marshalHeader m ++ ('\n' :: (m.data ++ (endMarker ++
            ('\n' :: ('\n' :: writeMatchFile tl)))))) := by
      simp [writeMatchFile, marshalText, List.append_assoc]
    rw [hshape,
      scanBlocks_block (marshalHeader m) m.data _ (marshalHeader_ne_nil m)
        (marshalHeader_no_newline m) (h m (List.mem_cons_self _ _)),
      scanBlocks_cons_none (tryMatchAt_newline _),
      scanBlocks_cons_none (tryMatchAt_newline _),
      ih (fun x hx => h x (List.mem_cons_of_mem _ hx))]
    rfl

theorem parseBlocks_marshal (ms : List Match)
    (hml : ∀ m ∈ ms, 0 ≤ m.pos ∧ 0 ≤ m.len) :
    parseBlocks (ms.map fun m => (marshalHeader m, m.data)) = some ms := by
  induction ms with
  | nil => rfl
  | cons m tl ih =>
    simp only [List.map_cons, parseBlocks]
    have hb : parseBlock (marshalHeader m, m.data) = some m := by
      unfold parseBlock
      simp only []
      rw [parseHeader_marshal m (hml m (List.mem_cons_self _ _)).1
        (hml m (List.mem_cons_self _ _)).2]
      rfl
    rw [hb, Option.some_bind, ih (fun x hx => hml x (List.mem_cons_of_mem _ hx)),
      Option.map_some']

/-- C3 (amended): for every record sequence produced by the Matcher with
unmodified data, *provided no record's data contains the nine-byte
terminator sequence `"\n#bed:end"`*, parsing the written match file
yields exactly the original records — same `(path, pos, len, data)`, in
the same order.  (Without the proviso the round trip fails:
`round_trip_counterexample`.) -/
theorem round_trip (re : Regexp) (fs : FS) (path : String) (content : Bytes)
    (ms : List Match) (hc : fs path = some content)
    (hm : FindAllIndexPath re fs path = some ms)
    (hdata : ∀ m ∈ ms, occursIn endMarker m.data = false) :
    ParseMatches (writeMatchFile ms) = some ms := by
  have hpl : ∀ m ∈ ms, 0 ≤ m.pos ∧ 0 ≤ m.len := by
    unfold FindAllIndexPath at hm
    rw [hc, Option.map_some'] at hm
    have hms : ms = ((re.findAllIndex content).zip (re.findAll content)).map
        (fun pr => ⟨path, (pr.1.1 : Int), (pr.1.2 : Int) - (pr.1.1 : Int), pr.2⟩) :=
      (Option.some.inj hm).symm
    rw [findAll_zip, List.map_map] at hms
    intro m hmem
    rw [hms] at hmem
    obtain ⟨pr, hpr, rfl⟩ := List.mem_map.mp hmem
    obtain ⟨hb1, _⟩ := re.bounds content pr hpr
    constructor
    · show (0 : Int) ≤ (pr.1 : Int)
      omega
    · show (0 : Int) ≤ (pr.2 : Int) - (pr.1 : Int)
      omega
  unfold ParseMatches
  rw [scanBlocks_writeMatchFile ms hdata, parseBlocks_marshal ms hpl]

/-- C3 witness: the demo engine's match on `fsW` round-trips. -/
theorem round_trip_witness :
    ParseMatches (writeMatchFile [⟨"w", 0, 1, strB "h"⟩])
      = some [⟨"w", 0, 1, strB "h"⟩] :=
  round_trip demoRe fsW "w" (strB "hello") _ rfl (by decide) (by decide)

/-- C3 counterexample: the whole-content engine `cexRe` on a file whose
content contains the terminator sequence produces the record
(pos=0, len=11, data="q\n#bed:endz") with unmodified data; decoding its
encoding yields a record with data "q" — the embedded `"\n#bed:end"`
terminates the body early, so decode∘encode is not the identity on
Matcher output. -/
theorem round_trip_counterexample :
    FindAllIndexPath cexRe
        (fun p => if p = "c" then some (strB "q\n#bed:endz") else none) "c"
      = some [⟨"c", 0, 11, strB "q\n#bed:endz"⟩]
    ∧ ParseMatches (writeMatchFile [⟨"c", 0, 11, strB "q\n#bed:endz"⟩])
        = some [⟨"c", 0, 11, strB "q"⟩]
    ∧ (some [(⟨"c", 0, 11, strB "q"⟩ : Match)]
        ≠ some [(⟨"c", 0, 11, strB "q\n#bed:endz"⟩ : Match)]) :=
  ⟨by decide, by decide, by decide⟩

end Bed
